import Mathlib

/-!
Shallow embedding of `src/index.js` of the nexus-db repository: the
path-addressing selectors (`createSelector`, `dataSetter`), the
`ListenerTree` class (`add`, `remove`, `notify`, `notifyAll`) and the store
mutation entry points (`setState` of `useGrainState`, which performs
whole-tree replacement followed by `notifyAll`, and
`setNexusWithSelector`/`setStateWithSelector`, which perform a scoped write
followed by `notify`).

Modelling conventions:
* JavaScript values reachable by the store operations are modelled by
  `JsVal`: objects are association lists in insertion order, plus the
  primitives the claims need.  JavaScript orders integer-like object keys
  before string keys; the model keeps pure insertion order.  All claim
  statements that depend on which callbacks fire are multiset/count
  statements or use keys where the two orders agree.
* Callbacks are identified by `Nat` tokens (the JS code compares callbacks
  by reference equality).  Whether a callback throws when invoked is given
  by an environment `env : Nat → Bool` (`true` = the invocation throws).
  The source has no try/catch, so a throwing callback aborts the traversal;
  `runCbs` models a `forEach` loop over an array of callbacks under such an
  environment.
* The listener tree stores its callbacks in the reserved object key
  `__listeners`; the model gives each node a separate `listeners` field.
  The two representations agree exactly for paths that never use the
  literal key "__listeners"; theorems that quantify over paths therefore
  carry an `okPath` hypothesis excluding that reserved key.
* The root object `this.tree = {}` has NO `__listeners` field.  The model
  represents the whole tree by the root's child list (`LTree`) and, where
  the code walks through the root uniformly, wraps it as `rootNode t`
  (a node with an empty listener list: firing an empty list is
  indistinguishable from skipping an absent one).  The two places where the
  missing root field is observable — `add`/`remove` on the empty path call
  `undefined.push` / `undefined.filter` and throw — are modelled by those
  operations returning `none` on the empty path.
* Exceptions are explicit: `Except` for the selector write path, and
  `NRes` for the outcome of `notify` (normal completion, a callback threw,
  or the `TypeError` raised by the ancestor pass reading `__listeners` of
  a missing node).  ES modules run in strict mode, so assigning a property
  of a primitive throws `TypeError`.
-/

namespace NexusDB

/-- Errors surfaced by the selector write path (`dataSetter`):
`errNoPath` is the explicit `throw new Error('Selector must have a "path" …')`
for a selector without a `path` property; `typeError` is the implicit
JavaScript `TypeError` from reading a property of `undefined`/`null` or
assigning a property of a non-object in strict mode. -/
inductive JsErr where
  | typeError : JsErr
  | errNoPath : JsErr
deriving DecidableEq

/-- JavaScript values stored in the nexus store, as far as the engine
observes them: objects (association lists in insertion order) and opaque
primitives. -/
inductive JsVal where
  | obj : List (String × JsVal) → JsVal
  | num : Int → JsVal
  | str : String → JsVal
  | boolv : Bool → JsVal
  | undefv : JsVal
  | nullv : JsVal

/-- Lookup of the first binding of a key in an association list (JavaScript
object property read; objects never hold duplicate keys, so "first" is
exact). -/
def findA (k : String) : List (String × α) → Option α
  | [] => none
  | (k1, v) :: rest => if k1 = k then some v else findA k rest

/-- Property assignment on an association list: replace the first binding of
the key in place (JavaScript keeps the key's insertion position), or append
a new binding. -/
def setA (k : String) (v : α) : List (String × α) → List (String × α)
  | [] => [(k, v)]
  | (k1, v1) :: rest => if k1 = k then (k, v) :: rest else (k1, v1) :: setA k v rest

/-- Deletion of the first binding of a key (the `delete parent[key]`
statement in `ListenerTree.remove`). -/
def eraseA (k : String) : List (String × α) → List (String × α)
  | [] => []
  | (k1, v1) :: rest => if k1 = k then rest else (k1, v1) :: eraseA k rest

/-- Whether a value is a JavaScript object (the only values accepting
property writes). -/
def JsVal.isObj : JsVal → Bool
  | .obj _ => true
  | _ => false

/-- One step `acc?.[key]` of the selector's `path.reduce` walk: reading a
property of an object looks it up (missing keys give `undefined`); reading
through `undefined`/`null` short-circuits to `undefined` via the optional
chain; property reads on the remaining primitives yield `undefined` for the
keys the engine uses. -/
def optGet (v : JsVal) (k : String) : JsVal :=
  match v with
  | .obj fs => (findA k fs).getD .undefv
  | _ => .undefv

/-- The selector read function produced by `createSelector`:
`(obj) => path.reduce((acc, key) => acc?.[key], obj)`. -/
def selRead (path : List String) (root : JsVal) : JsVal :=
  path.foldl optGet root

/-- Strict-mode property assignment `current[k] = v`: objects are updated in
place, everything else throws `TypeError` (assignment to a property of a
primitive, `undefined` or `null`). -/
def setProp (v : JsVal) (k : String) (w : JsVal) : Except JsErr JsVal :=
  match v with
  | .obj fs => Except.ok (.obj (setA k w fs))
  | _ => Except.error .typeError

/-- The key `path[path.length - 1]` used for the final assignment in
`dataSetter`: on an empty path the index is out of range, the lookup yields
`undefined`, and using it as a property key coerces it to the string
"undefined". -/
def lastKeyOf : List String → String
  | [] => "undefined"
  | [k] => k
  | _ :: k2 :: rest => lastKeyOf (k2 :: rest)

/-- The walking loop of `dataSetter` followed by the final assignment:
`for (i = 0; i < path.length - 1; i++) current = current[path[i]];
current[path[path.length - 1]] = newValue`.  The second argument is the
list of keys still to walk (`path` minus its last element), the third is
the final assignment key.  Reading a property of `undefined`/`null` throws;
reading one of another primitive yields `undefined` and the walk continues
(with no write-back, which is irrelevant because continuing from a
non-object can never complete normally); the functional update of an object
child models the in-place mutation of the shared structure. -/
def writeWalk (v : JsVal) : JsVal → List String → String → Except JsErr JsVal
  | cur, [], lastK => setProp cur lastK v
  | .obj fs, k :: rest, lastK =>
    match writeWalk v ((findA k fs).getD .undefv) rest lastK with
    | Except.error e => Except.error e
    | Except.ok child2 => Except.ok (.obj (setA k child2 fs))
  | .undefv, _ :: _, _ => Except.error .typeError
  | .nullv, _ :: _, _ => Except.error .typeError
  | _, _ :: rest, lastK => writeWalk v .undefv rest lastK

/-- The `dataSetter(object, selector, newValue)` function.  A selector
without a `path` property (`none`) hits the explicit guard and throws.  An
EMPTY path does NOT hit the guard (an empty array is truthy in JavaScript):
the loop body never runs and the assignment targets the key
`path[-1] = undefined`, coerced to the property key "undefined". -/
def dataSetter (object : JsVal) (sel : Option (List String)) (v : JsVal) :
    Except JsErr JsVal :=
  match sel with
  | none => Except.error .errNoPath
  | some path => writeWalk v object path.dropLast (lastKeyOf path)

/-- Side condition used by the round-trip claims: every value visited by the
`dataSetter` walk (the root and the values at each proper position of the
walked key list) is an object, i.e. the containers along the path exist. -/
def objChain : JsVal → List String → Bool
  | root, [] => root.isObj
  | root, k :: rest => root.isObj && objChain (optGet root k) rest

/-! ## The listener tree -/

/-- A node of the `ListenerTree`: the `__listeners` callback array and the
child nodes keyed by path segment, in insertion order. -/
inductive LNode where
  | mk : List Nat → List (String × LNode) → LNode

/-- The callback array of a node. -/
def LNode.listeners : LNode → List Nat
  | .mk ls _ => ls

/-- The child list of a node. -/
def LNode.children : LNode → List (String × LNode)
  | .mk _ cs => cs

/-- The whole tree is the child list of the root object `this.tree = {}`
(the root has no `__listeners` field; `add`/`remove` on the empty path
therefore throw, so the root can never hold callbacks). -/
abbrev LTree := List (String × LNode)

/-- The root object wrapped as a node with an empty callback list; firing an
empty list is indistinguishable from the code skipping the absent
`__listeners` field of `this.tree`. -/
def rootNode (t : LTree) : LNode := .mk [] t

mutual
/-- All callbacks in a node's subtree, in the pre-order used by
`notifyCallbacks` and `traverseAndNotify`: the node's own callbacks first,
then each child's subtree in key order. -/
def LNode.cbsUnder : LNode → List Nat
  | .mk ls cs => ls ++ cbsUnderChildren cs

/-- All callbacks in the subtrees of a child list, in order. -/
def cbsUnderChildren : List (String × LNode) → List Nat
  | [] => []
  | (_, n) :: rest => n.cbsUnder ++ cbsUnderChildren rest
end

/-- All callbacks registered anywhere in the tree. -/
def cbsUnderAll (t : LTree) : List Nat := cbsUnderChildren t

/-- Invocation of an array of callbacks in order (`forEach (cb => cb(...))`)
under a throw environment: returns the callbacks actually invoked (the
prefix up to and including the first throwing one) and whether an exception
escaped the loop. -/
def runCbs (env : Nat → Bool) : List Nat → List Nat × Bool
  | [] => ([], false)
  | c :: rest =>
    if env c then ([c], true)
    else
      let r := runCbs env rest
      (c :: r.1, r.2)

mutual
/-- The recursive `notifyCallbacks` helper of `notify` (also
`traverseAndNotify` of `notifyAll`): fire the node's callbacks, then
recurse into every child.  An exception thrown by a callback propagates
(there is no try/catch in the source), aborting the whole traversal. -/
def notifyNodeRun (env : Nat → Bool) : LNode → List Nat × Bool
  | .mk ls cs =>
    let a := runCbs env ls
    if a.2 then a
    else
      let b := notifyChildrenRun env cs
      (a.1 ++ b.1, b.2)

/-- Traversal of a child list by `notifyCallbacks`, aborting at the first
exception. -/
def notifyChildrenRun (env : Nat → Bool) : List (String × LNode) → List Nat × Bool
  | [] => ([], false)
  | (_, n) :: rest =>
    let a := notifyNodeRun env n
    if a.2 then a
    else
      let b := notifyChildrenRun env rest
      (a.1 ++ b.1, b.2)
end

/-- The downward walk of the subtree pass: follow the path from a node and
stop (`break`) at the first missing child, returning the node where the
walk stopped — NOT nothing: `notify` then runs `notifyCallbacks` on this
stop node. -/
def walkN : LNode → List String → LNode
  | n, [] => n
  | n, k :: rest =>
    match findA k n.children with
    | none => n
    | some c => walkN c rest

/-- The same walk as a partial lookup: `some` exactly when every key of the
path has a corresponding node. -/
def walkOpt : LNode → List String → Option LNode
  | n, [] => some n
  | n, k :: rest =>
    match findA k n.children with
    | none => none
    | some c => walkOpt c rest

/-- Outcome of a `notify` call: normal completion, an exception thrown by a
callback, or the `TypeError` raised by the ancestor pass when it reads
`__listeners` of a missing (`undefined`) node. -/
inductive NRes where
  | ok : NRes
  | cbThrew : NRes
  | typeError : NRes
deriving DecidableEq

/-- The ancestor ("parent paths") loop of `notify`, starting from a current
node that is `none` once the walk has stepped past a missing child: each
iteration reads `parentNode.__listeners` — a `TypeError` if `parentNode` is
`undefined` — fires those callbacks, and steps to the next key.  The loop
ends after the last key (the final, possibly undefined, assignment of
`parentNode` is never read). -/
def ancestorStep (env : Nat → Bool) : Option LNode → List String → List Nat × NRes
  | _, [] => ([], .ok)
  | none, _ :: _ => ([], .typeError)
  | some n, k :: rest =>
    let a := runCbs env n.listeners
    if a.2 then (a.1, .cbThrew)
    else
      let b := ancestorStep env (findA k n.children) rest
      (a.1 ++ b.1, b.2)

namespace ListenerTree

/-- The subtree pass of `notify(path)`: walk down from the root following
`path`, breaking at the first missing node, then invoke every callback in
the subtree of the stop node. -/
def subtreeRun (env : Nat → Bool) (t : LTree) (path : List String) : List Nat × Bool :=
  notifyNodeRun env (walkN (rootNode t) path)

/-- The ancestor pass of `notify(path)`: walk down from the root again,
firing each visited node's own callbacks (the root contributes nothing: its
`__listeners` field is absent). -/
def ancestorRun (env : Nat → Bool) (t : LTree) (path : List String) : List Nat × NRes :=
  ancestorStep env (some (rootNode t)) path

/-- `ListenerTree.notify(path)`: the subtree pass followed — if no exception
escaped it — by the ancestor pass.  Returns the invoked callbacks in order
and the outcome. -/
def notify (env : Nat → Bool) (t : LTree) (path : List String) : List Nat × NRes :=
  let a := subtreeRun env t path
  if a.2 then (a.1, .cbThrew)
  else
    let b := ancestorRun env t path
    (a.1 ++ b.1, b.2)

/-- `ListenerTree.notifyAll()`: pre-order traversal of the whole tree,
invoking every callback, aborting if one throws. -/
def notifyAll (env : Nat → Bool) (t : LTree) : List Nat × Bool :=
  notifyNodeRun env (rootNode t)

/-- The node-level part of `ListenerTree.add`: walk the path, creating
`{ __listeners: [] }` nodes for missing keys, and push the callback at the
terminal node. -/
def addNode : LNode → List String → Nat → LNode
  | .mk ls cs, [], cb => .mk (ls ++ [cb]) cs
  | .mk ls cs, k :: rest, cb =>
    match findA k cs with
    | some child => .mk ls (setA k (addNode child rest cb) cs)
    | none => .mk ls (cs ++ [(k, addNode (.mk [] []) rest cb)])

/-- `ListenerTree.add(path, callback)`.  On the empty path the loop never
runs and `this.tree.__listeners.push(callback)` is `undefined.push`: a
`TypeError`, modelled as `none`.  On a non-empty path the walk never
touches the root's (absent) listener field. -/
def add (t : LTree) (path : List String) (cb : Nat) : Option LTree :=
  match path with
  | [] => none
  | _ :: _ => some (addNode (rootNode t) path cb).children

/-- The node-level part of `ListenerTree.remove`: `none` means the node
became empty (no callbacks, no children) and is deleted from its parent —
exactly the stack-driven bottom-up pruning of the source, which deletes a
contiguous run of empty nodes from the terminal upward and stops at the
first non-empty node.  A missing key on the way is an early `return` with
no modification and no pruning. -/
def removeNode : LNode → List String → Nat → Option LNode
  | .mk ls cs, [], cb =>
    let ls2 := ls.filter (fun d => d != cb)
    if ls2.isEmpty && cs.isEmpty then none else some (.mk ls2 cs)
  | .mk ls cs, k :: rest, cb =>
    match findA k cs with
    | none => some (.mk ls cs)
    | some child =>
      match removeNode child rest cb with
      | some child2 => some (.mk ls (setA k child2 cs))
      | none =>
        let cs2 := eraseA k cs
        if ls.isEmpty && cs2.isEmpty then none else some (.mk ls cs2)

/-- `ListenerTree.remove(path, callback)`.  On the empty path
`this.tree.__listeners.filter(...)` is `undefined.filter`: a `TypeError`,
modelled as `none`.  The root object itself is never deleted (the pruning
stack holds only `(parent, key)` pairs), so when the node-level removal
reports the wrapped root empty, the result is the empty tree. -/
def remove (t : LTree) (path : List String) (cb : Nat) : Option LTree :=
  match path with
  | [] => none
  | _ :: _ =>
    some (match removeNode (rootNode t) path cb with
      | some n2 => n2.children
      | none => [])
end ListenerTree

/-- Length of the longest leading part of the path that exists as a chain of
nodes below the given node. -/
def chainDepthN : LNode → List String → Nat
  | _, [] => 0
  | n, k :: rest =>
    match findA k n.children with
    | none => 0
    | some c => 1 + chainDepthN c rest

/-- Length of the longest leading part of the path that exists in the tree. -/
def chainDepth (t : LTree) (path : List String) : Nat :=
  chainDepthN (rootNode t) path

/-- Whether every key of the path has a corresponding tree node. -/
def existsPath (t : LTree) (path : List String) : Bool :=
  (walkOpt (rootNode t) path).isSome

/-- Callbacks registered at exactly the given path below a node (empty when
the path has no node). -/
def nodeCbsAt (n : LNode) (q : List String) : List Nat :=
  (walkOpt n q).elim [] LNode.listeners

/-- Callbacks registered at exactly the given path of the tree (the empty
path addresses the root, which can hold no callbacks). -/
def cbsAt (t : LTree) (q : List String) : List Nat :=
  nodeCbsAt (rootNode t) q

/-- Callbacks registered at the given path or at any descendant of it:
the subtree of the path's node (for the empty path, the whole tree). -/
def descCbs (t : LTree) (q : List String) : List Nat :=
  (walkOpt (rootNode t) q).elim [] LNode.cbsUnder

/-- Concatenation of the lists produced by a function over a list. -/
def listFlat (f : α → List β) : List α → List β
  | [] => []
  | a :: rest => f a ++ listFlat f rest

/-- The strict leading parts (proper initial segments) of a path, shortest
first: for `[a, b]` these are `[]` and `[a]`. -/
def strictsOf : List String → List (List String)
  | [] => []
  | k :: rest => [] :: (strictsOf rest).map (fun q => k :: q)

/-- Callbacks registered at any strict ancestor of the path. -/
def ancestorCbs (t : LTree) (path : List String) : List Nat :=
  listFlat (fun q => cbsAt t q) (strictsOf path)

/-- The environment in which no callback throws. -/
def noThrow : Nat → Bool := fun _ => false

/-- Paths representable by the model: the JS tree stores the callback array
under the reserved object key "__listeners", so a path using that literal
key would collide with it; the model keeps callbacks in a separate field
and is faithful exactly for paths avoiding the reserved key. -/
def okPath (path : List String) : Bool :=
  path.all (fun k => !(k = "__listeners" : Bool))

/-! ## The store mutation API -/

/-- `setState(valueOrFunction)` of `useGrainState` (the store's whole-tree
replacement): compute the new root — calling the updater on the old root
when a function is given — assign it, then `listeners.notifyAll()`.
Returns the new root together with the notification run.  (The `useNexus`
variant instead bumps its `nexusSetAt` tick and leaves re-deriving to the
out-of-scope UI layer.) -/
def setState (env : Nat → Bool) (root : JsVal) (t : LTree)
    (arg : Sum JsVal (JsVal → JsVal)) : JsVal × (List Nat × Bool) :=
  (match arg with
   | Sum.inl v => v
   | Sum.inr f => f root,
   ListenerTree.notifyAll env t)

/-- `setNexusWithSelector`/`setStateWithSelector` (the store's scoped
write): `dataSetter(state, selector, newValue)` then
`listeners.notify(selector.path)`.  A `dataSetter` exception propagates to
the caller before any notification; the notification outcome (including an
exception it would propagate after the mutation has taken effect) is
returned alongside the post-write root. -/
def writeAt (env : Nat → Bool) (root : JsVal) (t : LTree)
    (sel : Option (List String)) (v : JsVal) :
    Except JsErr (JsVal × (List Nat × NRes)) :=
  match dataSetter root sel v with
  | Except.error e => Except.error e
  | Except.ok root2 => Except.ok (root2, ListenerTree.notify env t (sel.getD []))

/-- Operations on the listener tree, for stating invariants over arbitrary
operation sequences. -/
inductive LOp where
  | reg : List String → Nat → LOp
  | dereg : List String → Nat → LOp

/-- Apply one register/deregister operation (`none` = the operation threw). -/
def applyOp (t : LTree) : LOp → Option LTree
  | .reg p c => ListenerTree.add t p c
  | .dereg p c => ListenerTree.remove t p c

/-- Apply a sequence of operations, propagating failure. -/
def applyOps : LTree → List LOp → Option LTree
  | t, [] => some t
  | t, op :: rest =>
    match applyOp t op with
    | none => none
    | some t2 => applyOps t2 rest

/-- All paths of an operation sequence avoid the reserved key. -/
def opsOk : List LOp → Bool
  | [] => true
  | .reg p _ :: rest => okPath p && opsOk rest
  | .dereg p _ :: rest => okPath p && opsOk rest

/-- Register a list of `(path, callback)` pairs in order. -/
def regAll : LTree → List (List String × Nat) → Option LTree
  | t, [] => some t
  | t, (p, c) :: rest =>
    match ListenerTree.add t p c with
    | none => none
    | some t2 => regAll t2 rest

/-- All paths of a registration list avoid the reserved key. -/
def regsOk (rs : List (List String × Nat)) : Bool :=
  rs.all (fun r => okPath r.1)

mutual
/-- The structural invariant of the listener tree: a (non-root) node has at
least one callback or at least one child, and so do all its descendants. -/
def LNode.nodeOk : LNode → Bool
  | .mk ls cs => (!ls.isEmpty || !cs.isEmpty) && childrenOk cs

/-- All nodes of a child list satisfy the structural invariant. -/
def childrenOk : List (String × LNode) → Bool
  | [] => true
  | (_, n) :: rest => n.nodeOk && childrenOk rest
end

/-- The tree-level structural invariant (the root is exempt: it always
exists and holds no callbacks). -/
def treeOk (t : LTree) : Bool := childrenOk t

/-- A chain node holding the given callbacks at the end of the given path
and nothing else: the shape produced by registering at a single path. -/
def chainNode : List String → List Nat → LNode
  | [], ls => .mk ls []
  | k :: rest, ls => .mk [] [(k, chainNode rest ls)]

/-- The tree holding exactly the given callbacks at the end of one path. -/
def chainT (path : List String) (ls : List Nat) : LTree :=
  (chainNode path ls).children

/-- A throw environment in which exactly callback 1 throws. -/
def env0 : Nat → Bool := fun c => c == 1

/-- Registrations at paths `["a"]` and `["z", "q"]` with distinct callbacks. -/
def regsC3 : List (List String × Nat) := [(["a"], 0), (["z", "q"], 1)]

/-- The tree obtained by performing the registrations of `regsC3` in order. -/
def treeC3 : LTree := [("a", LNode.mk [0] []), ("z", LNode.mk [] [("q", LNode.mk [1] [])])]

/-- The store root `{x: {y: 0}}` of the round-trip scenario. -/
def rootC8 : JsVal := JsVal.obj [("x", JsVal.obj [("y", JsVal.num 0)])]

/-! ## Association list lemmas -/

theorem findA_setA (k : String) (v : α) :
    ∀ l : List (String × α), findA k (setA k v l) = some v
  | [] => by simp [setA, findA]
  | (k1, v1) :: rest => by
    by_cases h : k1 = k
    · simp [setA, findA, h]
    · simp [setA, findA, h, findA_setA k v rest]

theorem findA_append_right (k : String) :
    ∀ l l2 : List (String × α), findA k l = none → findA k (l ++ l2) = findA k l2
  | [], l2, _ => rfl
  | (k1, v1) :: rest, l2, h => by
    by_cases hk : k1 = k
    · simp [findA, hk] at h
    · simp [findA, hk] at h ⊢
      exact findA_append_right k rest l2 h

theorem cbsC_append :
    ∀ l l2 : List (String × LNode),
      cbsUnderChildren (l ++ l2) = cbsUnderChildren l ++ cbsUnderChildren l2
  | [], l2 => by simp [cbsUnderChildren]
  | (k, n) :: rest, l2 => by
    simp [cbsUnderChildren, cbsC_append rest l2]

/-! ## Callback invocation lemmas -/

theorem runCbs_noThrow : ∀ cs, runCbs noThrow cs = (cs, false)
  | [] => rfl
  | c :: rest => by simp [runCbs, noThrow, runCbs_noThrow rest]

theorem runCbs_append (env : Nat → Bool) :
    ∀ xs ys, runCbs env (xs ++ ys) =
      (if (runCbs env xs).2 then runCbs env xs
       else ((runCbs env xs).1 ++ (runCbs env ys).1, (runCbs env ys).2))
  | [], ys => by simp [runCbs]
  | x :: xs, ys => by
    have ih := runCbs_append env xs ys
    by_cases h : env x
    · simp [runCbs, h]
    · simp only [List.cons_append, runCbs, h, if_false, Bool.false_eq_true,
        List.append_eq]
      rw [ih]
      by_cases h2 : (runCbs env xs).2 <;> simp [h2]

/-- The invocation run aborts exactly by invoking a prefix that ends at the
first throwing callback. -/
theorem runCbs_firstThrow (env : Nat → Bool) :
    ∀ cs, (runCbs env cs).2 = true →
      ∃ pre c, (runCbs env cs).1 = pre ++ [c] ∧ env c = true ∧
        ∀ d ∈ pre, env d = false
  | [], h => by simp [runCbs] at h
  | c :: rest, h => by
    by_cases hc : env c
    · exact ⟨[], c, by simp [runCbs, hc], hc, by simp⟩
    · have hcf : env c = false := by revert hc; cases env c <;> simp
      have h2 : (runCbs env rest).2 = true := by simpa [runCbs, hc] using h
      obtain ⟨pre, c2, h1, h3, h4⟩ := runCbs_firstThrow env rest h2
      refine ⟨c :: pre, c2, by simp [runCbs, hc, h1], h3, ?_⟩
      intro d hd
      rcases List.mem_cons.mp hd with rfl | hd
      · exact hcf
      · exact h4 d hd

/-! ## The traversals under the no-throw environment -/

mutual
theorem notifyNode_noThrow : ∀ n : LNode, notifyNodeRun noThrow n = (n.cbsUnder, false)
  | .mk ls cs => by
    simp [notifyNodeRun, LNode.cbsUnder, runCbs_noThrow, notifyChildren_noThrow cs]

theorem notifyChildren_noThrow :
    ∀ l : List (String × LNode), notifyChildrenRun noThrow l = (cbsUnderChildren l, false)
  | [] => by simp [notifyChildrenRun, cbsUnderChildren]
  | (k, n) :: rest => by
    simp [notifyChildrenRun, cbsUnderChildren, notifyNode_noThrow n,
      notifyChildren_noThrow rest]
end

/-! ## Exception propagation: every traversal is the sequential invocation of
its no-throw schedule, aborting at the first throwing callback -/

mutual
theorem mNode (env : Nat → Bool) :
    ∀ n : LNode, notifyNodeRun env n = runCbs env n.cbsUnder
  | .mk ls cs => by
    by_cases h : (runCbs env ls).2
    · simp [notifyNodeRun, LNode.cbsUnder, mChildren env cs,
        runCbs_append env ls (cbsUnderChildren cs), h]
    · simp [notifyNodeRun, LNode.cbsUnder, mChildren env cs,
        runCbs_append env ls (cbsUnderChildren cs), h]

theorem mChildren (env : Nat → Bool) :
    ∀ l : List (String × LNode), notifyChildrenRun env l = runCbs env (cbsUnderChildren l)
  | [] => by simp [notifyChildrenRun, cbsUnderChildren, runCbs]
  | (k, n) :: rest => by
    by_cases h : (runCbs env (LNode.cbsUnder n)).2
    · simp [notifyChildrenRun, cbsUnderChildren, mNode env n, mChildren env rest,
        runCbs_append env (LNode.cbsUnder n) (cbsUnderChildren rest), h]
    · simp [notifyChildrenRun, cbsUnderChildren, mNode env n, mChildren env rest,
        runCbs_append env (LNode.cbsUnder n) (cbsUnderChildren rest), h]
end

theorem mAnc (env : Nat → Bool) :
    ∀ (P : List String) (o : Option LNode),
      ancestorStep env o P =
        ((runCbs env (ancestorStep noThrow o P).1).1,
         if (runCbs env (ancestorStep noThrow o P).1).2 then NRes.cbThrew
         else (ancestorStep noThrow o P).2)
  | [], o => by simp [ancestorStep, runCbs]
  | _ :: _, none => by simp [ancestorStep, runCbs]
  | k :: rest, some n => by
    have ih := mAnc env rest (findA k n.children)
    simp only [ancestorStep, runCbs_noThrow, Bool.false_eq_true, if_false, ih,
      runCbs_append env n.listeners (ancestorStep noThrow (findA k n.children) rest).1]
    by_cases h : (runCbs env n.listeners).2 <;> simp [h]

/-- Master lemma: `notify` under any throw environment invokes, in order,
the callbacks of its no-throw schedule up to the first throwing one; the
outcome is the callback exception if one throws, otherwise the no-throw
outcome. -/
theorem mNotify (env : Nat → Bool) (t : LTree) (P : List String) :
    ListenerTree.notify env t P =
      ((runCbs env (ListenerTree.notify noThrow t P).1).1,
       if (runCbs env (ListenerTree.notify noThrow t P).1).2 then NRes.cbThrew
       else (ListenerTree.notify noThrow t P).2) := by
  have hsub := mNode env (walkN (rootNode t) P)
  have hsub0 := notifyNode_noThrow (walkN (rootNode t) P)
  have hanc := mAnc env P (some (rootNode t))
  simp only [ListenerTree.notify, ListenerTree.subtreeRun, ListenerTree.ancestorRun,
    hsub, hsub0, hanc, Bool.false_eq_true, if_false,
    runCbs_append env (walkN (rootNode t) P).cbsUnder
      (ancestorStep noThrow (some (rootNode t)) P).1]
  by_cases h : (runCbs env (walkN (rootNode t) P).cbsUnder).2 <;> simp [h]

/-- Master lemma for `notifyAll`: it invokes the tree's callbacks in
pre-order up to the first throwing one. -/
theorem mAll (env : Nat → Bool) (t : LTree) :
    ListenerTree.notifyAll env t = runCbs env (cbsUnderAll t) :=
  calc ListenerTree.notifyAll env t
      = runCbs env (rootNode t).cbsUnder := mNode env (rootNode t)
    _ = runCbs env (cbsUnderAll t) := by
        simp [rootNode, LNode.cbsUnder, cbsUnderAll]

/-! ## Characterization of the walks and passes -/

theorem walkSome : ∀ (P : List String) (n : LNode),
    (walkOpt n P).isSome = true → walkOpt n P = some (walkN n P)
  | [], n, _ => by simp [walkOpt, walkN]
  | k :: rest, n, h => by
    cases hf : findA k n.children with
    | none => simp [walkOpt, hf] at h
    | some c =>
      have h2 : (walkOpt c rest).isSome = true := by simpa [walkOpt, hf] using h
      simp [walkOpt, walkN, hf, walkSome rest c h2]

theorem listFlat_map (f : β → List γ) (g : α → β) :
    ∀ l : List α, listFlat f (l.map g) = listFlat (fun a => f (g a)) l
  | [] => rfl
  | a :: rest => by simp [listFlat, listFlat_map f g rest]

/-- The ancestor pass over a fully existing path fires exactly the
callbacks registered at the strict leading parts of the path, in order, and
completes normally. -/
theorem ancChar : ∀ (P : List String) (n : LNode),
    (walkOpt n P).isSome = true →
    ancestorStep noThrow (some n) P =
      (listFlat (fun q => nodeCbsAt n q) (strictsOf P), NRes.ok)
  | [], n, _ => by simp [ancestorStep, strictsOf, listFlat]
  | k :: rest, n, h => by
    cases hf : findA k n.children with
    | none => simp [walkOpt, hf] at h
    | some m =>
      have h2 : (walkOpt m rest).isSome = true := by simpa [walkOpt, hf] using h
      have hfun : (fun q => nodeCbsAt n (k :: q)) = fun q => nodeCbsAt m q :=
        funext (fun q => by simp [nodeCbsAt, walkOpt, hf])
      simp only [ancestorStep, runCbs_noThrow, Bool.false_eq_true, if_false, hf,
        ancChar rest m h2, strictsOf, listFlat, listFlat_map, hfun, nodeCbsAt,
        walkOpt, Option.elim]

/-- When every key of the path has a node, `notify` completes normally and
invokes exactly the callbacks at or below the path (the subtree pass)
followed by the callbacks at its strict ancestors (the ancestor pass). -/
theorem notify_char (t : LTree) (P : List String) (h : existsPath t P = true) :
    ListenerTree.notify noThrow t P = (descCbs t P ++ ancestorCbs t P, NRes.ok) := by
  have hw := walkSome P (rootNode t) h
  have hs := notifyNode_noThrow (walkN (rootNode t) P)
  have ha := ancChar P (rootNode t) h
  simp only [ListenerTree.notify, ListenerTree.subtreeRun, ListenerTree.ancestorRun,
    hs, Bool.false_eq_true, if_false, ha, descCbs, ancestorCbs, cbsAt, hw,
    Option.elim]

theorem walkTake : ∀ (P : List String) (n : LNode),
    walkOpt n (P.take (chainDepthN n P)) = some (walkN n P)
  | [], n => by simp [chainDepthN, walkOpt, walkN]
  | k :: rest, n => by
    cases hf : findA k n.children with
    | none => simp [chainDepthN, hf, walkOpt, walkN]
    | some c =>
      simp only [chainDepthN, hf, Nat.add_comm 1 (chainDepthN c rest),
        List.take_succ_cons, walkOpt, walkN, walkTake rest c]

/-- The subtree pass always invokes exactly the callbacks at or below the
LONGEST EXISTING leading part of the path (when the whole path exists this
is the path itself; when the walk breaks early it is the node where the
walk stopped, whose whole subtree — including paths unrelated to the
written one — is notified). -/
theorem subtree_take (t : LTree) (P : List String) :
    (ListenerTree.subtreeRun noThrow t P).1 = descCbs t (P.take (chainDepth t P)) := by
  have hw := walkTake P (rootNode t)
  simp [ListenerTree.subtreeRun, notifyNode_noThrow, descCbs, chainDepth, hw]

theorem ancTypeErr : ∀ (P : List String) (n : LNode),
    chainDepthN n P + 2 ≤ P.length →
    (ancestorStep noThrow (some n) P).2 = NRes.typeError
  | [], n, h => by simp [chainDepthN] at h
  | k :: rest, n, h => by
    cases hf : findA k n.children with
    | none =>
      cases rest with
      | nil => simp [chainDepthN, hf] at h
      | cons r rest2 =>
        simp [ancestorStep, runCbs_noThrow, hf]
    | some m =>
      have h2 : chainDepthN m rest + 2 ≤ rest.length := by
        simp only [chainDepthN, hf, List.length_cons] at h
        omega
      simp [ancestorStep, runCbs_noThrow, hf, ancTypeErr rest m h2]

/-- When the longest existing chain of nodes stops at least two keys short
of the path's end, the ancestor pass reads the listener field of an
`undefined` node and `notify` throws a `TypeError`. -/
theorem notify_typeErr (t : LTree) (P : List String)
    (h : chainDepth t P + 2 ≤ P.length) :
    (ListenerTree.notify noThrow t P).2 = NRes.typeError := by
  have hs := notifyNode_noThrow (walkN (rootNode t) P)
  have ha := ancTypeErr P (rootNode t) h
  simp [ListenerTree.notify, ListenerTree.subtreeRun, ListenerTree.ancestorRun, hs, ha]

/-! ## Counting registrations through add -/

theorem count_cbsC_setA (k : String) :
    ∀ (l : List (String × LNode)) (n : LNode), findA k l = some n →
      ∀ (n2 : LNode) (d : Nat),
        (cbsUnderChildren (setA k n2 l)).count d + (n.cbsUnder).count d
          = (cbsUnderChildren l).count d + (n2.cbsUnder).count d
  | [], n, h => by simp [findA] at h
  | (k1, m) :: rest, n, h => by
    intro n2 d
    by_cases hk : k1 = k
    · obtain rfl : m = n := by simpa [findA, hk] using h
      simp [setA, hk, cbsUnderChildren, List.count_append]
      omega
    · have ih := count_cbsC_setA k rest n (by simpa [findA, hk] using h) n2 d
      simp [setA, hk, cbsUnderChildren, List.count_append]
      omega

theorem count_child_le (k : String) :
    ∀ (l : List (String × LNode)) (n : LNode), findA k l = some n →
      ∀ d : Nat, (n.cbsUnder).count d ≤ (cbsUnderChildren l).count d
  | [], n, h => by simp [findA] at h
  | (k1, m) :: rest, n, h => by
    intro d
    by_cases hk : k1 = k
    · obtain rfl : m = n := by simpa [findA, hk] using h
      simp only [cbsUnderChildren, List.count_append]
      omega
    · have ih := count_child_le k rest n (by simpa [findA, hk] using h) d
      simp only [cbsUnderChildren, List.count_append]
      omega

theorem root_cbs (t : LTree) : (rootNode t).cbsUnder = cbsUnderAll t := by
  simp [rootNode, LNode.cbsUnder, cbsUnderAll]

theorem addNode_cbs : ∀ (P : List String) (c : Nat) (n : LNode) (d : Nat),
    ((ListenerTree.addNode n P c).cbsUnder).count d
      = (n.cbsUnder).count d + ([c].count d)
  | [], c, .mk ls cs, d => by
    simp only [ListenerTree.addNode, LNode.cbsUnder, List.count_append,
      List.count_cons, List.count_nil]
    omega
  | k :: rest, c, .mk ls cs, d => by
    cases hf : findA k cs with
    | some child =>
      have h1 := count_cbsC_setA k cs child hf (ListenerTree.addNode child rest c) d
      have h2 := addNode_cbs rest c child d
      simp only [ListenerTree.addNode, hf, LNode.cbsUnder, List.count_append] at h1 h2 ⊢
      omega
    | none =>
      have h2 := addNode_cbs rest c (.mk [] []) d
      simp only [ListenerTree.addNode, hf, LNode.cbsUnder, List.count_append,
        cbsC_append, cbsUnderChildren, List.count_nil, List.append_nil] at h2 ⊢
      omega

theorem add_root (t : LTree) (P : List String) (c : Nat) (t2 : LTree)
    (h : ListenerTree.add t P c = some t2) :
    rootNode t2 = ListenerTree.addNode (rootNode t) P c := by
  cases P with
  | nil => simp [ListenerTree.add] at h
  | cons k rest =>
    simp only [ListenerTree.add, Option.some.injEq] at h
    subst h
    cases hf : findA k t <;>
      simp [ListenerTree.addNode, rootNode, LNode.children, hf]

theorem add_cbs (t : LTree) (P : List String) (c : Nat) (t2 : LTree)
    (h : ListenerTree.add t P c = some t2) (d : Nat) :
    (cbsUnderAll t2).count d = (cbsUnderAll t).count d + ([c].count d) :=
  calc (cbsUnderAll t2).count d
      = ((rootNode t2).cbsUnder).count d := by rw [root_cbs]
    _ = ((ListenerTree.addNode (rootNode t) P c).cbsUnder).count d := by
        rw [add_root t P c t2 h]
    _ = ((rootNode t).cbsUnder).count d + ([c].count d) := addNode_cbs P c (rootNode t) d
    _ = (cbsUnderAll t).count d + ([c].count d) := by rw [root_cbs]

theorem regAll_cbs : ∀ (rs : List (List String × Nat)) (t0 t : LTree),
    regAll t0 rs = some t →
      ∀ d : Nat, (cbsUnderAll t).count d
        = (cbsUnderAll t0).count d + ((rs.map Prod.snd).count d)
  | [], t0, t, h => by
    intro d
    simp only [regAll, Option.some.injEq] at h
    subst h
    simp
  | (p, c) :: rest, t0, t, h => by
    intro d
    cases ha : ListenerTree.add t0 p c with
    | none => simp [regAll, ha] at h
    | some t1 =>
      have h2 : regAll t1 rest = some t := by simpa [regAll, ha] using h
      have ih := regAll_cbs rest t1 t h2 d
      have hc := add_cbs t0 p c t1 ha d
      simp only [List.map_cons, List.count_cons, List.count_nil] at ih hc ⊢
      omega

theorem addWalkSome : ∀ (P : List String) (c : Nat) (n : LNode),
    (walkOpt (ListenerTree.addNode n P c) P).isSome = true
  | [], _, _ => by simp [walkOpt]
  | k :: rest, c, .mk ls cs => by
    cases hf : findA k cs with
    | some child =>
      simp [ListenerTree.addNode, hf, walkOpt, LNode.children, findA_setA,
        addWalkSome rest c child]
    | none =>
      simp [ListenerTree.addNode, hf, walkOpt, LNode.children,
        findA_append_right k cs _ hf, findA, addWalkSome rest c (.mk [] [])]

theorem add_existsPath (t : LTree) (P : List String) (c : Nat) (t2 : LTree)
    (h : ListenerTree.add t P c = some t2) : existsPath t2 P = true := by
  show (walkOpt (rootNode t2) P).isSome = true
  rw [add_root t P c t2 h]
  exact addWalkSome P c (rootNode t)

theorem nodeCbsAt_nil (n : LNode) : nodeCbsAt n [] = n.listeners := by
  simp [nodeCbsAt, walkOpt, Option.elim]

/-- A freshly registered callback is seen exactly once by the union of the
subtree region and the strict-ancestor region of its own path. -/
theorem c5node : ∀ (P : List String) (c : Nat) (n : LNode),
    (n.cbsUnder).count c = 0 →
    (((walkOpt (ListenerTree.addNode n P c) P).elim [] LNode.cbsUnder).count c)
      + ((listFlat (fun q => nodeCbsAt (ListenerTree.addNode n P c) q)
          (strictsOf P)).count c) = 1
  | [], c, .mk ls cs, h => by
    simp only [LNode.cbsUnder, List.count_append] at h
    simp [ListenerTree.addNode, walkOpt, strictsOf, listFlat, LNode.cbsUnder,
      List.count_append, Option.elim]
    omega
  | k :: rest, c, .mk ls cs, h => by
    have hsplit : ls.count c = 0 ∧ (cbsUnderChildren cs).count c = 0 := by
      simp only [LNode.cbsUnder, List.count_append] at h
      omega
    cases hf : findA k cs with
    | some child =>
      have hchild : (child.cbsUnder).count c = 0 :=
        Nat.le_zero.mp (hsplit.2 ▸ count_child_le k cs child hf c)
      have ih := c5node rest c child hchild
      have hfun : (fun q => nodeCbsAt
            (LNode.mk ls (setA k (ListenerTree.addNode child rest c) cs)) (k :: q))
          = fun q => nodeCbsAt (ListenerTree.addNode child rest c) q :=
        funext (fun q => by simp [nodeCbsAt, walkOpt, LNode.children, findA_setA])
      simp only [ListenerTree.addNode, hf, walkOpt, LNode.children, findA_setA,
        strictsOf, listFlat, listFlat_map, hfun, nodeCbsAt_nil,
        LNode.listeners, List.count_append]
      omega
    | none =>
      have ih := c5node rest c (.mk [] []) (by simp [LNode.cbsUnder, cbsUnderChildren])
      have hfind2 : findA k (cs ++ [(k, ListenerTree.addNode (.mk [] []) rest c)])
          = some (ListenerTree.addNode (.mk [] []) rest c) := by
        rw [findA_append_right k cs _ hf]
        simp [findA]
      have hfun : (fun q => nodeCbsAt
            (LNode.mk ls (cs ++ [(k, ListenerTree.addNode (.mk [] []) rest c)])) (k :: q))
          = fun q => nodeCbsAt (ListenerTree.addNode (.mk [] []) rest c) q :=
        funext (fun q => by simp [nodeCbsAt, walkOpt, LNode.children, hfind2])
      simp only [ListenerTree.addNode, hf, walkOpt, LNode.children, hfind2,
        strictsOf, listFlat, listFlat_map, hfun, nodeCbsAt_nil,
        LNode.listeners, List.count_append]
      omega

/-! ## The pruning invariant -/

theorem nodeOk_children (n : LNode) (h : n.nodeOk = true) :
    childrenOk n.children = true := by
  cases n with
  | mk ls cs =>
    simp only [LNode.nodeOk, Bool.and_eq_true] at h
    simpa [LNode.children] using h.2

theorem childrenOk_find (k : String) :
    ∀ (l : List (String × LNode)) (n : LNode),
      childrenOk l = true → findA k l = some n → n.nodeOk = true
  | [], n, _, h => by simp [findA] at h
  | (k1, m) :: rest, n, hok, h => by
    have hok2 : m.nodeOk = true ∧ childrenOk rest = true := by
      simpa [childrenOk, Bool.and_eq_true] using hok
    by_cases hk : k1 = k
    · obtain rfl : m = n := by simpa [findA, hk] using h
      exact hok2.1
    · exact childrenOk_find k rest n hok2.2 (by simpa [findA, hk] using h)

theorem childrenOk_setA (k : String) (n2 : LNode) :
    ∀ l : List (String × LNode),
      childrenOk l = true → n2.nodeOk = true → childrenOk (setA k n2 l) = true
  | [], _, h2 => by simp [setA, childrenOk, h2]
  | (k1, m) :: rest, hok, h2 => by
    have hok2 : m.nodeOk = true ∧ childrenOk rest = true := by
      simpa [childrenOk, Bool.and_eq_true] using hok
    by_cases hk : k1 = k
    · simp [setA, hk, childrenOk, h2, hok2.2]
    · simp [setA, hk, childrenOk, hok2.1, childrenOk_setA k n2 rest hok2.2 h2]

theorem childrenOk_erase (k : String) :
    ∀ l : List (String × LNode), childrenOk l = true → childrenOk (eraseA k l) = true
  | [], _ => by simp [eraseA, childrenOk]
  | (k1, m) :: rest, hok => by
    have hok2 : m.nodeOk = true ∧ childrenOk rest = true := by
      simpa [childrenOk, Bool.and_eq_true] using hok
    by_cases hk : k1 = k
    · simpa [eraseA, hk] using hok2.2
    · simp [eraseA, hk, childrenOk, hok2.1, childrenOk_erase k rest hok2.2]

theorem childrenOk_append1 (k : String) (n : LNode) :
    ∀ l : List (String × LNode),
      childrenOk l = true → n.nodeOk = true → childrenOk (l ++ [(k, n)]) = true
  | [], _, h2 => by simp [childrenOk, h2]
  | (k1, m) :: rest, hok, h2 => by
    have hok2 : m.nodeOk = true ∧ childrenOk rest = true := by
      simpa [childrenOk, Bool.and_eq_true] using hok
    simp [childrenOk, hok2.1, childrenOk_append1 k n rest hok2.2 h2]

theorem setA_ne_nil (k : String) (v : α) :
    ∀ l : List (String × α), (setA k v l).isEmpty = false
  | [] => by simp [setA]
  | (k1, v1) :: rest => by
    by_cases hk : k1 = k <;> simp [setA, hk]

theorem addNode_ok : ∀ (P : List String) (c : Nat) (ls : List Nat)
    (cs : List (String × LNode)), childrenOk cs = true →
    (ListenerTree.addNode (.mk ls cs) P c).nodeOk = true
  | [], c, ls, cs, hok => by
    simp [ListenerTree.addNode, LNode.nodeOk, hok]
  | k :: rest, c, ls, cs, hok => by
    cases hf : findA k cs with
    | some child =>
      cases hcc : child with
      | mk ls2 cs2 =>
        have hco : child.nodeOk = true := childrenOk_find k cs child hok hf
        rw [hcc] at hco
        have hcs2 : childrenOk cs2 = true := by
          simpa using nodeOk_children _ hco
        have hrec := addNode_ok rest c ls2 cs2 hcs2
        simp [ListenerTree.addNode, hf, hcc, LNode.nodeOk, setA_ne_nil,
          childrenOk_setA k _ cs hok hrec]
    | none =>
      have hrec := addNode_ok rest c [] [] (by simp [childrenOk])
      simp [ListenerTree.addNode, hf, LNode.nodeOk,
        childrenOk_append1 k _ cs hok hrec]

theorem removeNode_ok : ∀ (P : List String) (c : Nat) (n : LNode),
    n.nodeOk = true → ∀ n2 : LNode,
      ListenerTree.removeNode n P c = some n2 → n2.nodeOk = true
  | [], c, .mk ls cs, hok, n2, h => by
    have hcs : childrenOk cs = true := by
      simpa using nodeOk_children _ hok
    by_cases hcond : ((ls.filter (fun d => d != c)).isEmpty && cs.isEmpty) = true
    · rw [ListenerTree.removeNode] at h
      simp only [hcond, if_true] at h
      exact Option.noConfusion h
    · have h2 : n2 = .mk (ls.filter (fun d => d != c)) cs := by
        rw [ListenerTree.removeNode] at h
        simp only [hcond, if_false, Option.some.injEq, Bool.false_eq_true] at h
        exact h.symm
      subst h2
      simp only [LNode.nodeOk, Bool.and_eq_true]
      constructor
      · revert hcond
        cases (ls.filter (fun d => d != c)).isEmpty <;> cases cs.isEmpty <;> simp
      · exact hcs
  | k :: rest, c, .mk ls cs, hok, n2, h => by
    have hcs : childrenOk cs = true := by
      simpa using nodeOk_children _ hok
    cases hf : findA k cs with
    | none =>
      have h2 : n2 = .mk ls cs := by
        rw [ListenerTree.removeNode] at h
        simp only [hf, Option.some.injEq] at h
        exact h.symm
      subst h2
      exact hok
    | some child =>
      have hco : child.nodeOk = true := childrenOk_find k cs child hcs hf
      cases hr2 : ListenerTree.removeNode child rest c with
      | some child2 =>
        have hco2 : child2.nodeOk = true := removeNode_ok rest c child hco child2 hr2
        have h2 : n2 = .mk ls (setA k child2 cs) := by
          rw [ListenerTree.removeNode] at h
          simp only [hf, hr2, Option.some.injEq] at h
          exact h.symm
        subst h2
        simp [LNode.nodeOk, setA_ne_nil, childrenOk_setA k child2 cs hcs hco2]
      | none =>
        by_cases hcond : (ls.isEmpty && (eraseA k cs).isEmpty) = true
        · rw [ListenerTree.removeNode] at h
          simp [hf, hr2, hcond] at h
        · have h2 : n2 = .mk ls (eraseA k cs) := by
            rw [ListenerTree.removeNode] at h
            simp only [hf, hr2, hcond, if_false, Option.some.injEq,
              Bool.false_eq_true] at h
            exact h.symm
          subst h2
          simp only [LNode.nodeOk, Bool.and_eq_true]
          constructor
          · revert hcond
            cases ls.isEmpty <;> cases (eraseA k cs).isEmpty <;> simp
          · exact childrenOk_erase k cs hcs

theorem add_treeOk (t : LTree) (P : List String) (c : Nat) (t2 : LTree)
    (ht : treeOk t = true) (h : ListenerTree.add t P c = some t2) :
    treeOk t2 = true := by
  cases P with
  | nil => simp [ListenerTree.add] at h
  | cons k rest =>
    simp only [ListenerTree.add, Option.some.injEq] at h
    subst h
    have hok := addNode_ok (k :: rest) c [] t ht
    exact nodeOk_children _ hok

theorem remove_treeOk (t : LTree) (P : List String) (c : Nat) (t2 : LTree)
    (ht : treeOk t = true) (h : ListenerTree.remove t P c = some t2) :
    treeOk t2 = true := by
  cases P with
  | nil => simp [ListenerTree.remove] at h
  | cons k rest =>
    simp only [ListenerTree.remove, Option.some.injEq] at h
    subst h
    cases hf : findA k t with
    | none =>
      have hstep : ListenerTree.removeNode (LNode.mk [] t) (k :: rest) c
          = some (LNode.mk [] t) := by
        simp [ListenerTree.removeNode, LNode.children, hf]
      simp only [rootNode, hstep, LNode.children]
      exact ht
    | some child =>
      have hco : child.nodeOk = true := childrenOk_find k t child ht hf
      cases hr2 : ListenerTree.removeNode child rest c with
      | some child2 =>
        have hco2 : child2.nodeOk = true := removeNode_ok rest c child hco child2 hr2
        simp [ListenerTree.removeNode, rootNode, LNode.children, hf, hr2, treeOk,
          childrenOk_setA k child2 t ht hco2]
      | none =>
        by_cases he : (eraseA k t).isEmpty = true
        · simp [ListenerTree.removeNode, rootNode, LNode.children, hf, hr2, he, treeOk,
            childrenOk]
        · simp [ListenerTree.removeNode, rootNode, LNode.children, hf, hr2, he, treeOk,
            childrenOk_erase k t ht]

theorem applyOp_ok (t : LTree) (op : LOp) (t2 : LTree) (ht : treeOk t = true)
    (h : applyOp t op = some t2) : treeOk t2 = true := by
  cases op with
  | reg p c => exact add_treeOk t p c t2 ht h
  | dereg p c => exact remove_treeOk t p c t2 ht h

theorem applyOps_ok : ∀ (ops : List LOp) (t t2 : LTree), treeOk t = true →
    applyOps t ops = some t2 → treeOk t2 = true
  | [], t, t2, ht, h => by
    simp only [applyOps, Option.some.injEq] at h
    subst h
    exact ht
  | op :: rest, t, t2, ht, h => by
    cases ho : applyOp t op with
    | none => simp [applyOps, ho] at h
    | some t1 =>
      have h2 : applyOps t1 rest = some t2 := by simpa [applyOps, ho] using h
      exact applyOps_ok rest t1 t2 (applyOp_ok t op t1 ht ho) h2

/-! ## Single-path (chain) trees -/

theorem addNode_empty : ∀ (P : List String) (c : Nat),
    ListenerTree.addNode (.mk [] []) P c = chainNode P [c]
  | [], c => by simp [ListenerTree.addNode, chainNode]
  | k :: rest, c => by
    simp [ListenerTree.addNode, findA, chainNode, addNode_empty rest c]

theorem addNode_chain : ∀ (P : List String) (ls : List Nat) (c : Nat),
    ListenerTree.addNode (chainNode P ls) P c = chainNode P (ls ++ [c])
  | [], ls, c => by simp [ListenerTree.addNode, chainNode]
  | k :: rest, ls, c => by
    simp [ListenerTree.addNode, chainNode, findA, setA, addNode_chain rest ls c]

theorem removeNode_chain : ∀ (P : List String) (c : Nat),
    ListenerTree.removeNode (chainNode P [c, c]) P c = none
  | [], c => by simp [ListenerTree.removeNode, chainNode]
  | k :: rest, c => by
    simp [ListenerTree.removeNode, chainNode, findA, removeNode_chain rest c, eraseA]

theorem rootNode_chain (k : String) (rest : List String) (ls : List Nat) :
    rootNode (chainT (k :: rest) ls) = chainNode (k :: rest) ls := rfl

theorem addT_empty (k : String) (rest : List String) (c : Nat) :
    ListenerTree.add ([] : LTree) (k :: rest) c = some (chainT (k :: rest) [c]) := by
  have h := addNode_empty (k :: rest) c
  simp only [ListenerTree.add, rootNode, h, chainT]

theorem addT_chain (k : String) (rest : List String) (ls : List Nat) (c : Nat) :
    ListenerTree.add (chainT (k :: rest) ls) (k :: rest) c
      = some (chainT (k :: rest) (ls ++ [c])) := by
  show some (ListenerTree.addNode (rootNode (chainT (k :: rest) ls)) (k :: rest) c).children
      = some (chainT (k :: rest) (ls ++ [c]))
  rw [rootNode_chain, addNode_chain]
  rfl

theorem removeT_chain (k : String) (rest : List String) (c : Nat) :
    ListenerTree.remove (chainT (k :: rest) [c, c]) (k :: rest) c = some [] := by
  have h := removeNode_chain (k :: rest) c
  simp only [ListenerTree.remove, rootNode_chain, h]

theorem walkN_chain : ∀ (P : List String) (ls : List Nat),
    walkN (chainNode P ls) P = .mk ls []
  | [], ls => by simp [walkN, chainNode]
  | k :: rest, ls => by
    simp [walkN, chainNode, LNode.children, findA, walkN_chain rest ls]

theorem anc_chain : ∀ (P : List String) (ls : List Nat),
    ancestorStep noThrow (some (chainNode P ls)) P = ([], NRes.ok)
  | [], ls => by simp [ancestorStep]
  | k :: rest, ls => by
    simp [ancestorStep, chainNode, LNode.listeners, LNode.children, runCbs, findA,
      anc_chain rest ls]

theorem notify_chain (k : String) (rest : List String) (ls : List Nat) :
    ListenerTree.notify noThrow (chainT (k :: rest) ls) (k :: rest) = (ls, NRes.ok) := by
  have hw := walkN_chain (k :: rest) ls
  have ha := anc_chain (k :: rest) ls
  simp [ListenerTree.notify, ListenerTree.subtreeRun, ListenerTree.ancestorRun,
    rootNode_chain, hw, ha, notifyNode_noThrow, LNode.cbsUnder, cbsUnderChildren]

theorem ancFirst_none : ∀ Q : List String,
    (ancestorStep noThrow (none : Option LNode) Q).1 = []
  | [] => by simp [ancestorStep]
  | _ :: _ => by simp [ancestorStep]

theorem notify_nilTree : ∀ P : List String,
    (ListenerTree.notify noThrow ([] : LTree) P).1 = [] := by
  intro P
  cases P with
  | nil =>
    simp [ListenerTree.notify, ListenerTree.subtreeRun, ListenerTree.ancestorRun,
      rootNode, walkN, notifyNode_noThrow, LNode.cbsUnder, cbsUnderChildren,
      ancestorStep]
  | cons k rest =>
    simp [ListenerTree.notify, ListenerTree.subtreeRun, ListenerTree.ancestorRun,
      rootNode, walkN, LNode.children, findA, notifyNode_noThrow, LNode.cbsUnder,
      cbsUnderChildren, ancestorStep, runCbs, LNode.listeners, ancFirst_none rest]

/-! ## Selector write lemmas -/

theorem undefWalk : ∀ (L : List String) (lk : String) (v : JsVal),
    writeWalk v JsVal.undefv L lk = Except.error JsErr.typeError
  | [], lk, v => by simp [writeWalk, setProp]
  | _ :: _, lk, v => by simp [writeWalk]

theorem selRead_append (a b : List String) (r : JsVal) :
    selRead (a ++ b) r = selRead b (selRead a r) := by
  simp [selRead, List.foldl_append]

theorem writeWalk_rt : ∀ (ws : List String) (root : JsVal) (lk : String) (v : JsVal),
    objChain root ws = true →
    ∃ root2, writeWalk v root ws lk = Except.ok root2 ∧ selRead (ws ++ [lk]) root2 = v
  | [], root, lk, v, h => by
    cases root with
    | obj fs =>
      refine ⟨.obj (setA lk v fs), by simp [writeWalk, setProp], ?_⟩
      simp [selRead, optGet, findA_setA]
    | num n => simp [objChain, JsVal.isObj] at h
    | str s => simp [objChain, JsVal.isObj] at h
    | boolv b => simp [objChain, JsVal.isObj] at h
    | undefv => simp [objChain, JsVal.isObj] at h
    | nullv => simp [objChain, JsVal.isObj] at h
  | k :: ws2, root, lk, v, h => by
    cases root with
    | obj fs =>
      have h2 : objChain ((findA k fs).getD .undefv) ws2 = true := by
        simpa [objChain, JsVal.isObj, optGet] using h
      obtain ⟨child2, hc1, hc2⟩ := writeWalk_rt ws2 ((findA k fs).getD .undefv) lk v h2
      refine ⟨.obj (setA k child2 fs), by simp [writeWalk, hc1], ?_⟩
      have hsel : selRead (k :: (ws2 ++ [lk])) (.obj (setA k child2 fs))
          = selRead (ws2 ++ [lk]) child2 := by
        simp [selRead, optGet, findA_setA]
      simpa [hsel] using hc2
    | num n => simp [objChain, JsVal.isObj] at h
    | str s => simp [objChain, JsVal.isObj] at h
    | boolv b => simp [objChain, JsVal.isObj] at h
    | undefv => simp [objChain, JsVal.isObj] at h
    | nullv => simp [objChain, JsVal.isObj] at h

theorem writeWalk_err : ∀ (ws : List String) (root : JsVal) (lk : String) (v : JsVal),
    objChain root ws = false → writeWalk v root ws lk = Except.error JsErr.typeError
  | [], root, lk, v, h => by
    cases root with
    | obj fs => simp [objChain, JsVal.isObj] at h
    | num n => simp [writeWalk, setProp]
    | str s => simp [writeWalk, setProp]
    | boolv b => simp [writeWalk, setProp]
    | undefv => simp [writeWalk, setProp]
    | nullv => simp [writeWalk, setProp]
  | k :: ws2, root, lk, v, h => by
    cases root with
    | obj fs =>
      have h2 : objChain ((findA k fs).getD .undefv) ws2 = false := by
        simpa [objChain, JsVal.isObj, optGet] using h
      simp [writeWalk, writeWalk_err ws2 ((findA k fs).getD .undefv) lk v h2]
    | num n => simp [writeWalk, undefWalk]
    | str s => simp [writeWalk, undefWalk]
    | boolv b => simp [writeWalk, undefWalk]
    | undefv => simp [writeWalk]
    | nullv => simp [writeWalk]

theorem dropLast_lastKey : ∀ P : List String, P ≠ [] →
    P.dropLast ++ [lastKeyOf P] = P
  | [], h => absurd rfl h
  | [k], _ => by simp [lastKeyOf]
  | k1 :: k2 :: rest, _ => by
    have ih := dropLast_lastKey (k2 :: rest) (by simp)
    simp only [List.dropLast_cons₂, lastKeyOf, List.cons_append, ih]

/-! ## The claims -/

/-- C1, counterexample: a callback registered ONLY at `["b"]` — a path that
is neither `["a"]` nor an ancestor nor a descendant of it — IS invoked by
`notify(["a"])`: the subtree walk breaks at the root (no node for "a") and
then runs `notifyCallbacks` on the node where it stopped, i.e. the whole
tree, so the break-early case contributes invocations and unrelated
listeners fire.  This refutes both the sibling-exclusion part and the
"subtree pass contributes no invocations" part of the claim. -/
theorem C1_cex :
    ListenerTree.add ([] : LTree) ["b"] 7 = some [("b", LNode.mk [7] [])] ∧
    ListenerTree.notify noThrow [("b", LNode.mk [7] [])] ["a"] = ([7], NRes.ok) :=
  ⟨rfl, rfl⟩

/-- C1, amended: when every leading part of P has a corresponding tree node,
`notify(P)` completes normally and invokes exactly the callbacks registered
at P or a descendant of P (the subtree pass) followed by those at strict
ancestors of P (the ancestor pass), and a callback in neither region is not
invoked; in general the subtree pass invokes exactly the callbacks at or
below the LONGEST EXISTING leading part of P (so when the walk breaks early
it notifies the whole subtree of the deepest existing node, not nothing). -/
theorem C1_notify_regions (t : LTree) (P : List String) (hok : okPath P = true) :
    (existsPath t P = true →
      ListenerTree.notify noThrow t P = (descCbs t P ++ ancestorCbs t P, NRes.ok)) ∧
    (ListenerTree.subtreeRun noThrow t P).1 = descCbs t (P.take (chainDepth t P)) ∧
    (existsPath t P = true → ∀ c : Nat,
      c ∉ descCbs t P → c ∉ ancestorCbs t P →
      c ∉ (ListenerTree.notify noThrow t P).1) := by
  refine ⟨fun h => notify_char t P h, subtree_take t P, ?_⟩
  intro h c h1 h2 hmem
  rw [notify_char t P h] at hmem
  rcases List.mem_append.mp hmem with hm | hm
  · exact h1 hm
  · exact h2 hm

/-- C1, witness for the amended theorem: a tree with callbacks 5 at `["a"]`
and 6 at `["a", "b"]`; `notify(["a"])` fires the subtree region `[5, 6]`
and the (empty) ancestor region and completes normally. -/
theorem C1_w :
    ListenerTree.notify noThrow [("a", LNode.mk [5] [("b", LNode.mk [6] [])])] ["a"]
      = (descCbs [("a", LNode.mk [5] [("b", LNode.mk [6] [])])] ["a"]
          ++ ancestorCbs [("a", LNode.mk [5] [("b", LNode.mk [6] [])])] ["a"],
         NRes.ok) :=
  (C1_notify_regions [("a", LNode.mk [5] [("b", LNode.mk [6] [])])] ["a"] rfl).1 rfl

/-- C2, counterexample: callbacks 1 and 2 are registered at `["a"]` in that
order and callback 1 throws.  `notify(["a"])` invokes only callback 1, the
exception escapes to the caller (outcome `cbThrew`, not `ok`), and callback
2 — a remaining matching callback — is never invoked: there is no
try/catch in the source, so a throwing subscriber is NOT isolated. -/
theorem C2_cex :
    ListenerTree.notify env0 [("a", LNode.mk [1, 2] [])] ["a"] = ([1], NRes.cbThrew) ∧
    2 ∉ (ListenerTree.notify env0 [("a", LNode.mk [1, 2] [])] ["a"]).1 :=
  ⟨rfl, by decide⟩

/-- C2, amended: during `notify(P)` and `notifyAll()` a subscriber
exception is NOT caught: the run invokes the no-throw schedule in order up
to and including the FIRST throwing callback, the remaining callbacks (and
the remaining pass) are skipped, and the exception propagates to the
mutation caller as the outcome. -/
theorem C2_throw_propagates :
    (∀ (env : Nat → Bool) (t : LTree) (P : List String),
      ListenerTree.notify env t P =
        ((runCbs env (ListenerTree.notify noThrow t P).1).1,
         if (runCbs env (ListenerTree.notify noThrow t P).1).2 then NRes.cbThrew
         else (ListenerTree.notify noThrow t P).2)) ∧
    (∀ (env : Nat → Bool) (t : LTree),
      ListenerTree.notifyAll env t = runCbs env (cbsUnderAll t)) ∧
    (∀ (env : Nat → Bool) (cs : List Nat), (runCbs env cs).2 = true →
      ∃ pre c, (runCbs env cs).1 = pre ++ [c] ∧ env c = true ∧
        ∀ d ∈ pre, env d = false) :=
  ⟨mNotify, mAll, runCbs_firstThrow⟩

/-- C2, witness: under `env0` the run over `[1, 2]` aborts; the theorem
yields the invoked prefix `[] ++ [1]` with the throwing callback last. -/
theorem C2_w :
    ∃ pre c, (runCbs env0 [1, 2]).1 = pre ++ [c] ∧ env0 c = true ∧
      ∀ d ∈ pre, env0 d = false :=
  C2_throw_propagates.2.2 env0 [1, 2] rfl

/-- C3: `setState` of `useGrainState` (the store's whole-tree replacement)
returns the literal new root, or the updater applied to the old root, and
its `notifyAll` invokes every callback registered anywhere in the listener
tree exactly once per registration, regardless of path: for a tree built by
any successful registration sequence, the invocation count of each callback
equals its registration count. -/
theorem C3_replace_notifiesAll
    (regs : List (List String × Nat)) (t : LTree) (root v : JsVal)
    (f : JsVal → JsVal) (hok : regsOk regs = true)
    (hreg : regAll ([] : LTree) regs = some t) :
    (setState noThrow root t (Sum.inl v)).1 = v ∧
    (setState noThrow root t (Sum.inr f)).1 = f root ∧
    ∀ c : Nat, ((setState noThrow root t (Sum.inl v)).2.1).count c
      = (regs.map Prod.snd).count c := by
  refine ⟨rfl, rfl, ?_⟩
  intro c
  have h1 := regAll_cbs regs [] t hreg c
  have h2 : (setState noThrow root t (Sum.inl v)).2.1 = cbsUnderAll t := by
    simp [setState, mAll, runCbs_noThrow]
  rw [h2, h1]
  simp [cbsUnderAll, cbsUnderChildren]

/-- C3, witness: callbacks 0 at `["a"]` and 1 at `["z", "q"]`; `replace`
with a literal root returns it, `replace` with an updater applies it, and
both callbacks fire exactly once. -/
theorem C3_w :
    (setState noThrow (JsVal.num 0) treeC3 (Sum.inl (JsVal.num 7))).1 = JsVal.num 7 ∧
    (setState noThrow (JsVal.num 0) treeC3 (Sum.inr (fun x => x))).1 = JsVal.num 0 ∧
    ∀ c : Nat, ((setState noThrow (JsVal.num 0) treeC3 (Sum.inl (JsVal.num 7))).2.1).count c
      = (regsC3.map Prod.snd).count c :=
  C3_replace_notifiesAll regsC3 treeC3 (JsVal.num 0) (JsVal.num 7) (fun x => x) rfl rfl

/-- C4, counterexample: a scoped write through a selector whose key
sequence is EMPTY does not fail at all — the guard `if (!path)` does not
fire because an empty array is truthy — instead the value is assigned on
the root object under the key "undefined" (the out-of-range index
`path[-1]` is `undefined`, coerced to a property key). -/
theorem C4_cex :
    dataSetter (JsVal.obj []) (some []) (JsVal.num 5)
      = Except.ok (JsVal.obj [("undefined", JsVal.num 5)]) ∧
    ∀ e : JsErr, dataSetter (JsVal.obj []) (some []) (JsVal.num 5) ≠ Except.error e := by
  refine ⟨rfl, ?_⟩
  intro e h
  exact Except.noConfusion
    ((rfl : dataSetter (JsVal.obj []) (some []) (JsVal.num 5)
        = Except.ok (JsVal.obj [("undefined", JsVal.num 5)])).symm.trans h)

/-- C4, amended: a scoped write through a selector that LACKS a path
property fails synchronously with the selector error, surfaced to the
`writeAt` caller; a selector whose key sequence is EMPTY is not rejected:
on an object root the write succeeds and assigns the new value under the
literal key "undefined". -/
theorem C4_empty_selector :
    (∀ (env : Nat → Bool) (root v : JsVal) (t : LTree),
      writeAt env root t none v = Except.error JsErr.errNoPath) ∧
    (∀ (fs : List (String × JsVal)) (v : JsVal),
      dataSetter (JsVal.obj fs) (some []) v
        = Except.ok (JsVal.obj (setA "undefined" v fs))) :=
  ⟨fun _ _ _ _ => rfl, fun _ _ => rfl⟩

/-- C5, counterexample: for the empty path, `register([], C)` itself throws
(`this.tree.__listeners` is `undefined`, so `.push` is a `TypeError`), and
C is therefore never invoked — refuting the claim's quantification over ALL
paths P. -/
theorem C5_cex : ListenerTree.add ([] : LTree) [] 0 = none := rfl

/-- C5, amended: for every NON-EMPTY path P (registration on the empty
path throws) and every callback C not already registered in the tree,
`register(P, C)` followed by `notify(P)` invokes C exactly once: the
subtree pass and the ancestor pass never both deliver the same
registration. -/
theorem C5_registered_once (t : LTree) (P : List String) (c : Nat) (t2 : LTree)
    (hok : okPath P = true) (hfresh : (cbsUnderAll t).count c = 0)
    (hadd : ListenerTree.add t P c = some t2) :
    ((ListenerTree.notify noThrow t2 P).1).count c = 1 := by
  have hex := add_existsPath t P c t2 hadd
  have hroot := add_root t P c t2 hadd
  have hn := c5node P c (rootNode t) (by rw [root_cbs]; exact hfresh)
  rw [notify_char t2 P hex]
  simp only [List.count_append, descCbs, ancestorCbs, cbsAt, hroot]
  exact hn

/-- C5, witness: registering callback 3 at `["a", "b"]` in the empty tree
and notifying `["a", "b"]` invokes it exactly once. -/
theorem C5_w :
    ((ListenerTree.notify noThrow [("a", LNode.mk [] [("b", LNode.mk [3] [])])]
        ["a", "b"]).1).count 3 = 1 :=
  C5_registered_once [] ["a", "b"] 3 [("a", LNode.mk [] [("b", LNode.mk [3] [])])]
    rfl rfl rfl

/-- C6: `notify` is not total — whenever the deepest existing chain of
nodes along P stops at least two keys short of P's length, the ancestor
pass steps past the last existing node and reads `__listeners` of
`undefined`, so `notify(P)` throws a `TypeError` instead of completing. -/
theorem C6_notify_partial (t : LTree) (P : List String) (hok : okPath P = true)
    (h : chainDepth t P + 2 ≤ P.length) :
    (ListenerTree.notify noThrow t P).2 = NRes.typeError :=
  notify_typeErr t P h

/-- C6, witness: on the empty listener tree, `notify(["a", "b"])` (a path
of length 2, existing chain depth 0) throws. -/
theorem C6_w :
    (ListenerTree.notify noThrow ([] : LTree) ["a", "b"]).2 = NRes.typeError :=
  C6_notify_partial [] ["a", "b"] rfl (by decide)

/-- C7: after any successful sequence of register/deregister operations on
an initially empty tree, every node other than the root has at least one
callback or at least one child (removal prunes all dangling empty nodes);
and concretely, registering one callback at `["a", "b"]` and deregistering
it leaves the empty tree — no node for "a" or "b" remains. -/
theorem C7_no_dangling :
    (∀ (ops : List LOp) (t : LTree), opsOk ops = true →
      applyOps ([] : LTree) ops = some t → treeOk t = true) ∧
    applyOps ([] : LTree) [LOp.reg ["a", "b"] 0, LOp.dereg ["a", "b"] 0] = some [] := by
  constructor
  · intro ops t _ h
    exact applyOps_ok ops [] t rfl h
  · rfl

/-- C7, witness: the tree after registering at `["a", "b"]` satisfies the
structural invariant. -/
theorem C7_w : treeOk [("a", LNode.mk [] [("b", LNode.mk [0] [])])] = true :=
  C7_no_dangling.1 [LOp.reg ["a", "b"] 0]
    [("a", LNode.mk [] [("b", LNode.mk [0] [])])] rfl rfl

/-- C8: `writeAt` round-trip — for every root whose containers exist along
all proper leading parts of a non-empty path P, the scoped write succeeds
and reading P against the post-write root returns the written value. -/
theorem C8_write_roundtrip (env : Nat → Bool) (root : JsVal) (P : List String)
    (v : JsVal) (t : LTree) (hne : P ≠ [])
    (hch : objChain root P.dropLast = true) :
    ∃ root2 r, writeAt env root t (some P) v = Except.ok (root2, r) ∧
      selRead P root2 = v := by
  obtain ⟨root2, h1, h2⟩ := writeWalk_rt P.dropLast root (lastKeyOf P) v hch
  refine ⟨root2, ListenerTree.notify env t ((some P).getD []), ?_, ?_⟩
  · simp [writeAt, dataSetter, h1]
  · have hd := dropLast_lastKey P hne
    calc selRead P root2 = selRead (P.dropLast ++ [lastKeyOf P]) root2 := by rw [hd]
      _ = v := h2

/-- C8, witness: with root `{x: {y: 0}}`, writing 5 at `["x", "y"]` and
reading `["x", "y"]` back returns 5. -/
theorem C8_w :
    ∃ root2 r, writeAt noThrow rootC8 ([] : LTree) (some ["x", "y"]) (JsVal.num 5)
      = Except.ok (root2, r) ∧ selRead ["x", "y"] root2 = JsVal.num 5 :=
  C8_write_roundtrip noThrow rootC8 ["x", "y"] (JsVal.num 5) [] (by simp) rfl

/-- C9: when some container along the proper leading parts of a non-empty
path is absent (not an object), the scoped write fails with the broken-path
`TypeError` — surfaced to the caller, and no intermediate containers are
auto-created (the error result carries no mutated root). -/
theorem C9_broken_path (env : Nat → Bool) (root : JsVal) (P : List String)
    (v : JsVal) (t : LTree) (hne : P ≠ [])
    (hch : objChain root P.dropLast = false) :
    writeAt env root t (some P) v = Except.error JsErr.typeError := by
  have h1 := writeWalk_err P.dropLast root (lastKeyOf P) v hch
  simp [writeAt, dataSetter, h1]

/-- C9, witness: with root `{x: 5}` (the value at "x" is not a container),
writing at `["x", "y"]` fails with the `TypeError`. -/
theorem C9_w :
    writeAt noThrow (JsVal.obj [("x", JsVal.num 5)]) ([] : LTree)
      (some ["x", "y"]) (JsVal.num 1) = Except.error JsErr.typeError :=
  C9_broken_path noThrow (JsVal.obj [("x", JsVal.num 5)]) ["x", "y"] (JsVal.num 1)
    [] (by simp) rfl

/-- C10: duplicate registration is a multiset with set-style removal — two
`register(P, C)` calls for the same callback store two entries and
`notify(P)` invokes C twice; one `deregister(P, C)` call removes EVERY
stored copy (the filter drops all of them, and pruning then removes the
emptied chain), after which `notify(P)` invokes C zero times. -/
theorem C10_dup_multiset (k : String) (rest : List String) (c : Nat)
    (hok : okPath (k :: rest) = true) :
    ListenerTree.add ([] : LTree) (k :: rest) c = some (chainT (k :: rest) [c]) ∧
    ListenerTree.add (chainT (k :: rest) [c]) (k :: rest) c
      = some (chainT (k :: rest) [c, c]) ∧
    ((ListenerTree.notify noThrow (chainT (k :: rest) [c, c]) (k :: rest)).1).count c
      = 2 ∧
    ListenerTree.remove (chainT (k :: rest) [c, c]) (k :: rest) c = some [] ∧
    ((ListenerTree.notify noThrow ([] : LTree) (k :: rest)).1).count c = 0 := by
  refine ⟨addT_empty k rest c, ?_, ?_, removeT_chain k rest c, ?_⟩
  · simpa using addT_chain k rest [c] c
  · rw [notify_chain k rest [c, c]]
    simp [List.count_cons]
  · rw [notify_nilTree]
    simp

/-- C10, witness: the duplicate-registration scenario at path `["a", "b"]`
with callback 5. -/
theorem C10_w :
    ListenerTree.add ([] : LTree) ["a", "b"] 5 = some (chainT ["a", "b"] [5]) ∧
    ListenerTree.add (chainT ["a", "b"] [5]) ["a", "b"] 5
      = some (chainT ["a", "b"] [5, 5]) ∧
    ((ListenerTree.notify noThrow (chainT ["a", "b"] [5, 5]) ["a", "b"]).1).count 5
      = 2 ∧
    ListenerTree.remove (chainT ["a", "b"] [5, 5]) ["a", "b"] 5 = some [] ∧
    ((ListenerTree.notify noThrow ([] : LTree) ["a", "b"]).1).count 5 = 0 :=
  C10_dup_multiset "a" ["b"] 5 rfl

end NexusDB
